import Mathlib

set_option maxHeartbeats 1000000

namespace GReX

/-- Number of frequency channels (src/common.rs, CHANNELS). -/
def CHANNELS : Nat := 2048

/-!  ## Capture (src/capture.rs)

We model the body of Capture::start as a pure transition function on the
capture state.  A payload is modelled as its 64-bit count together with an
abstract value of type alpha standing for the 2 x 2048 complex int8 spectra
block; a zero-filled block (Default::default in the source) is modelled by a
distinguished value zero : alpha.  Counts are modelled as Nat: the counter
is a u64 that increases by one per 8.192 microsecond packet, so 64-bit
wraparound is unreachable over any physical run and is not modelled. -/

/-- Model of the Payload record (src/common.rs) as seen by the capture
loop: the count header plus the spectra block. -/
structure CapPayload (α : Type) where
  count : Nat
  data : α
deriving DecidableEq

/-- Mutable state of the Capture struct (src/capture.rs) together with the
FIRST_PACKET global atomic (src/common.rs). -/
structure CapState where
  drops : Nat
  shuffled : Nat
  processed : Nat
  first_payload : Bool
  next_expected_count : Nat
  first_packet : Nat
deriving DecidableEq

/-- Initial capture state, as built by Capture::new (drops, shuffled and
processed start at zero, first_payload is true) with FIRST_PACKET
initialized to 0. -/
def CapState.new : CapState :=
  { drops := 0, shuffled := 0, processed := 0, first_payload := true
    next_expected_count := 0, first_packet := 0 }

/-- One iteration of the receive loop in Capture::start
(src/capture.rs, lines 133-168), for one received payload: returns the
updated state and the list of payloads sent downstream (in order).  The
stats send and the shutdown poll do not affect this state and are omitted. -/
def capStep (zero : α) (c : CapState) (pl : CapPayload α) :
    CapState × List (CapPayload α) :=
  let c := { c with processed := c.processed + 1 }
  if c.first_payload then
    ({ c with first_payload := false
              first_packet := pl.count
              next_expected_count := pl.count + 1 }, [pl])
  else if pl.count = c.next_expected_count then
    ({ c with next_expected_count := c.next_expected_count + 1 }, [pl])
  else if pl.count < c.next_expected_count then
    ({ c with shuffled := c.shuffled + 1 }, [])
  else
    let drops := pl.count - c.next_expected_count
    ({ c with drops := c.drops + drops
              next_expected_count := pl.count + 1 },
     (List.range drops).map (fun d =>
        { count := c.next_expected_count + d, data := zero }) ++ [pl])

/-- Run the capture loop over a whole list of received payloads,
concatenating everything sent downstream. -/
def capRun (zero : α) (c : CapState) :
    List (CapPayload α) → CapState × List (CapPayload α)
  | [] => (c, [])
  | p :: rest =>
    let s1 := capStep zero c p
    let s2 := capRun zero s1.1 rest
    (s2.1, s1.2 ++ s2.2)

/-- Any step leaves the first_payload marker cleared. -/
lemma capStep_first_payload (zero : α) (c : CapState) (p : CapPayload α) :
    (capStep zero c p).1.first_payload = false := by
  rcases p with ⟨pc, pd⟩
  by_cases h0 : c.first_payload
  · simp [capStep, h0]
  · by_cases h1 : pc = c.next_expected_count
    · simp [capStep, h0, h1]
    · by_cases h2 : pc < c.next_expected_count
      · simp [capStep, h0, h1, h2]
      · simp [capStep, h0, h1, h2]

/-- After any step from a post-first state, the forwarded counts are
exactly the interval from the old next_expected_count to the new one. -/
lemma capStep_counts (zero : α) (c : CapState) (p : CapPayload α)
    (h : c.first_payload = false) :
    ((capStep zero c p).2.map CapPayload.count =
      List.range' c.next_expected_count
        ((capStep zero c p).1.next_expected_count - c.next_expected_count)) ∧
    c.next_expected_count ≤ (capStep zero c p).1.next_expected_count := by
  rcases p with ⟨pc, pd⟩
  by_cases h1 : pc = c.next_expected_count
  · subst h1
    simp [capStep, h, List.range'_one]
  · by_cases h2 : pc < c.next_expected_count
    · simp [capStep, h, h1, h2]
    · have h3 : c.next_expected_count < pc := by omega
      simp only [capStep, h, Bool.false_eq_true, if_false, if_neg h1,
        if_neg h2]
      constructor
      · simp only [List.map_append, List.map_map]
        have hr : (List.range (pc - c.next_expected_count)).map
            (CapPayload.count ∘ fun d =>
              ({ count := c.next_expected_count + d, data := zero } :
                CapPayload α)) =
            List.range' c.next_expected_count (pc - c.next_expected_count) := by
          rw [List.range'_eq_map_range]
          rfl
        rw [hr]
        have h4 : pc + 1 - c.next_expected_count =
            (pc - c.next_expected_count) + 1 := by omega
        rw [h4, List.range'_1_concat]
        have h5 : c.next_expected_count + (pc - c.next_expected_count) = pc := by
          omega
        rw [h5]
        rfl
      · omega

/-- Two adjacent count intervals concatenate to one interval. -/
lemma range'_join (s m k : Nat) (h1 : s ≤ m) (h2 : m ≤ k) :
    List.range' s (m - s) ++ List.range' m (k - m) = List.range' s (k - s) := by
  have h := List.range'_append s (m - s) (k - m) 1
  rw [show s + 1 * (m - s) = m by omega] at h
  rw [show (k - m) + (m - s) = k - s by omega] at h
  exact h

/-- First component of capRun on a cons cell. -/
lemma capRun_cons_fst (zero : α) (c : CapState) (p : CapPayload α)
    (rest : List (CapPayload α)) :
    (capRun zero c (p :: rest)).1 =
      (capRun zero (capStep zero c p).1 rest).1 :=
  rfl

/-- Second component of capRun on a cons cell. -/
lemma capRun_cons_snd (zero : α) (c : CapState) (p : CapPayload α)
    (rest : List (CapPayload α)) :
    (capRun zero c (p :: rest)).2 =
      (capStep zero c p).2 ++ (capRun zero (capStep zero c p).1 rest).2 :=
  rfl

/-- Running the loop from any post-first state forwards exactly the counts
from the old next_expected_count up to the final one, in order. -/
lemma capRun_counts (zero : α) (c : CapState) (l : List (CapPayload α))
    (h : c.first_payload = false) :
    ((capRun zero c l).2.map CapPayload.count =
      List.range' c.next_expected_count
        ((capRun zero c l).1.next_expected_count - c.next_expected_count)) ∧
    c.next_expected_count ≤ (capRun zero c l).1.next_expected_count := by
  induction l generalizing c with
  | nil => simp [capRun]
  | cons p rest ih =>
    have hstep := capStep_counts zero c p h
    have hfp := capStep_first_payload zero c p
    obtain ⟨ih1, ih2⟩ := ih (capStep zero c p).1 hfp
    rw [capRun_cons_fst, capRun_cons_snd]
    refine ⟨?_, by omega⟩
    simp only [List.map_append]
    rw [hstep.1, ih1]
    exact range'_join _ _ _ hstep.2 ih2

/-- C1: the capture loop forwards payloads in strictly monotonically
increasing consecutive count order.  A payload with count equal to
next_expected_count is forwarded and the counter incremented; one below is
dropped with shuffled incremented; one above causes one zero-filled payload
per missing count in the gap to be forwarded before it, with drops
incremented by the gap size.  In particular feeding counts 0,1,3,2,4 forwards
counts 0,1,2,3,4 where the count-2 payload is the synthesized zero-filled
one, ending with shuffled = 1 and drops = 1. -/
theorem c1_capture_order_and_gapfill :
    (∀ (c : CapState) (p : CapPayload Nat), c.first_payload = false →
      (p.count = c.next_expected_count →
        capStep 0 c p =
          ({ c with processed := c.processed + 1
                    next_expected_count := c.next_expected_count + 1 }, [p])) ∧
      (p.count < c.next_expected_count →
        capStep 0 c p =
          ({ c with processed := c.processed + 1
                    shuffled := c.shuffled + 1 }, [])) ∧
      (c.next_expected_count < p.count →
        capStep 0 c p =
          ({ c with processed := c.processed + 1
                    drops := c.drops + (p.count - c.next_expected_count)
                    next_expected_count := p.count + 1 },
           (List.range (p.count - c.next_expected_count)).map (fun d =>
             { count := c.next_expected_count + d, data := 0 }) ++ [p]))) ∧
    (∀ (l : List (CapPayload Nat)) (p : CapPayload Nat),
      ((capRun 0 CapState.new (p :: l)).2).map CapPayload.count =
        List.range' p.count ((capRun 0 CapState.new (p :: l)).2.length)) ∧
    capRun 0 CapState.new
        [⟨0, 10⟩, ⟨1, 11⟩, ⟨3, 13⟩, ⟨2, 12⟩, ⟨4, 14⟩] =
      ({ drops := 1, shuffled := 1, processed := 5, first_payload := false
         next_expected_count := 5, first_packet := 0 },
       [⟨0, 10⟩, ⟨1, 11⟩, ⟨2, 0⟩, ⟨3, 13⟩, ⟨4, 14⟩]) := by
  refine ⟨?_, ?_, by decide⟩
  · intro c p h
    refine ⟨?_, ?_, ?_⟩
    · intro h1
      simp [capStep, h, h1]
    · intro h2
      have h1 : ¬ p.count = c.next_expected_count := by omega
      simp [capStep, h, h1, h2]
    · intro h3
      have h1 : ¬ p.count = c.next_expected_count := by omega
      have h2 : ¬ p.count < c.next_expected_count := by omega
      simp [capStep, h, h1, h2]
  · intro l p
    have h1 : (capStep (0 : Nat) CapState.new p).1 =
        { drops := 0, shuffled := 0, processed := 1, first_payload := false
          next_expected_count := p.count + 1, first_packet := p.count } := rfl
    have hfp : (capStep (0 : Nat) CapState.new p).1.first_payload = false := by
      rw [h1]
    have hne : (capStep (0 : Nat) CapState.new p).1.next_expected_count =
        p.count + 1 := by rw [h1]
    obtain ⟨hc, hle⟩ := capRun_counts 0 (capStep (0 : Nat) CapState.new p).1 l hfp
    rw [capRun_cons_snd]
    have h2 : (capStep (0 : Nat) CapState.new p).2 = [p] := rfl
    rw [h2]
    simp only [List.cons_append, List.nil_append, List.map_cons,
      List.length_cons]
    rw [List.range'_succ]
    congr 1
    rw [hc, hne]
    congr 1
    have hlen := congrArg List.length hc
    simp only [List.length_map, List.length_range'] at hlen
    rw [hne] at hlen
    exact hlen.symm

/-- Witness for c1_capture_order_and_gapfill: the gap branch at a concrete
post-first state with next_expected_count 2 receiving count 5. -/
theorem c1_capture_order_and_gapfill_witness :
    (({ drops := 0, shuffled := 0, processed := 1, first_payload := false
        next_expected_count := 2, first_packet := 0 } : CapState).first_payload
      = false) ∧
    (2 : Nat) < 5 ∧
    capStep (0 : Nat)
      { drops := 0, shuffled := 0, processed := 1, first_payload := false
        next_expected_count := 2, first_packet := 0 }
      { count := 5, data := 7 } =
      ({ drops := 3, shuffled := 0, processed := 2, first_payload := false
         next_expected_count := 6, first_packet := 0 },
       [⟨2, 0⟩, ⟨3, 0⟩, ⟨4, 0⟩, ⟨5, 7⟩]) :=
  ⟨rfl, by decide,
    ((c1_capture_order_and_gapfill.1 _ _ rfl).2.2 (by decide))⟩

/-!  ## Endianness of the count header (src/capture.rs lines 117-122)

The source reinterprets the 8200-byte receive buffer as a Payload with a
raw pointer cast and applies no decoding whatsoever.  On a little-endian
host the u64 count field therefore reads as the little-endian
interpretation of the first 8 bytes of the datagram. -/

/-- Little-endian interpretation of a byte list (first byte is least
significant), as the x86-64 host reads a u64 from memory. -/
def leU64 : List Nat → Nat
  | [] => 0
  | b :: rest => b + 256 * leU64 rest

/-- Modelled from the spec: big-endian interpretation of a byte list (first
byte is most significant); the decoding the spec asserts the capture loop
performs. -/
def beU64 (l : List Nat) : Nat :=
  l.foldl (fun acc b => 256 * acc + b) 0

/-- Model of the pointer-cast reinterpretation of the receive buffer
(src/capture.rs line 122) on a little-endian host: the count field occupies
the first 8 bytes, read in host byte order with no swap; the rest is the
spectra block. -/
def payloadOfBytes (bytes : List Nat) : CapPayload (List Nat) :=
  { count := leU64 (bytes.take 8), data := bytes.drop 8 }

/-- The little-endian value of a byte list is the big-endian value of its
reversal. -/
lemma leU64_eq_beU64_reverse (l : List Nat) : leU64 l = beU64 l.reverse := by
  induction l with
  | nil => rfl
  | cons b rest ih =>
    have hb : beU64 (rest.reverse ++ [b]) = 256 * beU64 rest.reverse + b := by
      unfold beU64
      rw [List.foldl_append]
      rfl
    simp only [leU64, List.reverse_cons, hb, ih]
    omega

/-- C5 counterexample: a datagram whose first 8 bytes are 01 00 00 00 00 00
00 00 is forwarded with count 1 (the little-endian reading), not 2^56 (the
big-endian / byte-swapped reading the claim asserts). -/
theorem c5_counterexample :
    ((capRun [] CapState.new
        [payloadOfBytes (1 :: List.replicate 8199 0)]).2.map
      CapPayload.count = [1]) ∧
    beU64 ((1 :: List.replicate 8199 0).take 8) = 2 ^ 56 ∧
    (1 : Nat) ≠ 2 ^ 56 := by
  refine ⟨rfl, ?_, by decide⟩
  rfl

/-- C5 amended: the capture loop applies no byte-order conversion at all;
the forwarded count is the little-endian (host order) interpretation of the
first 8 bytes of the datagram, i.e. the byte-reversal of the big-endian
decoding rather than the big-endian decoding itself. -/
theorem c5_amended_no_byte_swap (bytes : List Nat) :
    ((capRun [] CapState.new [payloadOfBytes bytes]).2.map
      CapPayload.count = [leU64 (bytes.take 8)]) ∧
    leU64 (bytes.take 8) = beU64 (bytes.take 8).reverse :=
  ⟨rfl, leU64_eq_beU64_reverse _⟩

/-!  ## Voltage ring buffer (src/dumps.rs)

The buffer is a 4-D int8 tensor indexed [time, pol, channel, reim]; we
abstract one time slot (the [2, 2048, 2] block copied from one payload) as a
value of type alpha and model the Array4 as a total function from the time
index.  A payload as pushed carries its count and its slot data. -/

/-- Preset dump window size (src/dumps.rs line 19). -/
def DUMP_SIZE : Nat := 262144

/-- A payload as seen by the ring: its count and its channel-data block. -/
structure RingPayload (α : Type) where
  count : Nat
  data : α

/-- State of the DumpRing struct (src/dumps.rs lines 24-38). -/
@[ext]
structure DumpRing (α : Type) where
  write_ptr : Nat
  buffer : Nat → α
  capacity : Nat
  oldest : Option Nat
  full : Bool
  last : Option Nat

/-- DumpRing::new (src/dumps.rs lines 41-57): capacity 2^size_power with
the buffer prefilled by the page-touching pattern (abstracted as fill). -/
def DumpRing.new (size_power : Nat) (fill : α) : DumpRing α :=
  { write_ptr := 0, buffer := fun _ => fill, capacity := 2 ^ size_power
    oldest := none, full := false, last := none }

/-- DumpRing::reset (src/dumps.rs lines 60-65). -/
def DumpRing.reset (r : DumpRing α) : DumpRing α :=
  { r with write_ptr := 0, full := false, oldest := none, last := none }

/-- Body of DumpRing::push after the monotonicity check (src/dumps.rs
lines 83-110): copy the slot, advance the pointer, then maintain
oldest, last and full exactly as the source does. -/
def DumpRing.pushCore (r : DumpRing α) (pl : RingPayload α) : DumpRing α :=
  let r1 : DumpRing α :=
    { r with
      buffer := fun i => if i = r.write_ptr then pl.data else r.buffer i
      write_ptr := (r.write_ptr + 1) % r.capacity }
  if r1.oldest = none then
    { r1 with oldest := some pl.count, last := some pl.count }
  else
    let r2 := if r1.full then
        { r1 with oldest := some (r1.oldest.getD 0 + 1) } else r1
    if r2.write_ptr = 0 ∧ r2.full = false then
      { r2 with full := true } else r2

/-- DumpRing::push (src/dumps.rs lines 67-111): reset on a non-monotonic
count, otherwise update last and run the push body. -/
def DumpRing.push (r : DumpRing α) (pl : RingPayload α) : DumpRing α :=
  match r.last with
  | some l =>
    if pl.count ≠ l + 1 then r.reset
    else DumpRing.pushCore { r with last := some pl.count } pl
  | none => DumpRing.pushCore r pl

/-- DumpRing::consecutive_views (src/dumps.rs lines 115-132): the two
contiguous time-ordered chunks.  Not full: everything below write_ptr then
an empty view; full: from write_ptr to the end (oldest chunk) then below
write_ptr (newest chunk). -/
def DumpRing.consecutive_views (r : DumpRing α) : List α × List α :=
  if r.full = false then
    ((List.range r.write_ptr).map r.buffer, [])
  else
    ((List.range' r.write_ptr (r.capacity - r.write_ptr)).map r.buffer,
     (List.range r.write_ptr).map r.buffer)

/-- The list of n payloads with consecutive counts c0, c0+1, ... and slot
data given by dat. -/
def consecutivePayloads (c0 : Nat) (dat : Nat → α) (n : Nat) :
    List (RingPayload α) :=
  (List.range n).map (fun j => { count := c0 + j, data := dat (c0 + j) })

/-- Fold DumpRing::push over a list of payloads. -/
def pushRun (r : DumpRing α) (pls : List (RingPayload α)) : DumpRing α :=
  pls.foldl DumpRing.push r

/-- The ring state after pushing n consecutive payloads into a fresh ring. -/
def ringAfter (size_power c0 : Nat) (dat : Nat → α) (fill : α) (n : Nat) :
    DumpRing α :=
  pushRun (DumpRing.new size_power fill) (consecutivePayloads c0 dat n)

/-- Peeling the last push off a consecutive run. -/
lemma ringAfter_succ (size_power c0 : Nat) (dat : Nat → α) (fill : α)
    (n : Nat) :
    ringAfter size_power c0 dat fill (n + 1) =
      (ringAfter size_power c0 dat fill n).push
        { count := c0 + n, data := dat (c0 + n) } := by
  unfold ringAfter consecutivePayloads pushRun
  rw [List.range_succ, List.map_append, List.foldl_append]
  rfl

/-- Closed form of the state after n consecutive pushes (valid for n >= 1
and capacity at least 2): the write pointer is n mod C, the ring is full
once n reaches C, the slot at index i holds the most recently written
sample congruent to i mod C, oldest trails the head by min n C, and last is
the most recent count. -/
def ringClosed (size_power c0 : Nat) (dat : Nat → α) (fill : α) (n : Nat) :
    DumpRing α :=
  { write_ptr := n % 2 ^ size_power
    buffer := fun i =>
      if i < n % 2 ^ size_power then
        dat (c0 + (n - n % 2 ^ size_power) + i)
      else if i < min n (2 ^ size_power) then
        dat (c0 + (n - n % 2 ^ size_power) - 2 ^ size_power + i)
      else fill
    capacity := 2 ^ size_power
    oldest := some (c0 + (n - 2 ^ size_power))
    full := decide (2 ^ size_power ≤ n)
    last := some (c0 + n - 1) }

/-- The state of a fresh ring after n >= 1 consecutive pushes matches the
closed form, provided the capacity is at least 2. -/
lemma ringAfter_eq_closed (size_power c0 : Nat) (dat : Nat → α) (fill : α)
    (hp : 1 ≤ size_power) (n : Nat) (hn : 1 ≤ n) :
    ringAfter size_power c0 dat fill n =
      ringClosed size_power c0 dat fill n := by
  have hC2 : 2 ≤ 2 ^ size_power := by
    calc 2 = 2 ^ 1 := rfl
    _ ≤ 2 ^ size_power := Nat.pow_le_pow_right (by norm_num) hp
  have hC0 : 0 < 2 ^ size_power := by omega
  induction n with
  | zero => omega
  | succ n ih =>
    rcases Nat.eq_or_lt_of_le hn with h1 | h1
    · -- base case: a single push into the fresh ring
      have hz : n = 0 := by omega
      subst hz
      rw [ringAfter_succ]
      have h0 : ringAfter size_power c0 dat fill 0 =
          DumpRing.new size_power fill := rfl
      rw [h0]
      have hL : (DumpRing.new size_power fill : DumpRing α).push
          { count := c0 + 0, data := dat (c0 + 0) } =
          { write_ptr := 1 % 2 ^ size_power
            buffer := fun i => if i = 0 then dat (c0 + 0) else fill
            capacity := 2 ^ size_power
            oldest := some (c0 + 0), full := false
            last := some (c0 + 0) } := by
        simp [DumpRing.push, DumpRing.new, DumpRing.pushCore]
      rw [hL]
      have h1C : (1 : Nat) % 2 ^ size_power = 1 :=
        Nat.mod_eq_of_lt (by omega)
      have hmin : min 1 (2 ^ size_power) = 1 := by omega
      refine DumpRing.ext rfl ?_ rfl ?_ ?_ ?_
      · funext i
        simp only [ringClosed, h1C, hmin]
        by_cases hi : i < 1
        · have hi0 : i = 0 := by omega
          subst hi0
          rw [if_pos rfl, if_pos (by omega)]
        · have hi0 : ¬ i = 0 := by omega
          rw [if_neg hi0, if_neg hi, if_neg hi]
      · simp only [ringClosed]
        congr 2
        omega
      · simp only [ringClosed]
        exact (decide_eq_false (by omega : ¬ 2 ^ size_power ≤ 1)).symm
      · simp only [ringClosed]
        congr 2
    · -- inductive step: n >= 1
      have hn1 : 1 ≤ n := by omega
      rw [ringAfter_succ, ih hn1]
      -- the incoming count is monotonic, so push takes the pushCore path
      have hmono : c0 + n = (c0 + n - 1) + 1 := by omega
      have hm_lt : n % 2 ^ size_power < 2 ^ size_power := Nat.mod_lt _ hC0
      have hm_le : n % 2 ^ size_power ≤ n := Nat.mod_le n _
      simp only [DumpRing.push, ringClosed, DumpRing.reset, DumpRing.pushCore,
        ne_eq]
      rw [if_neg (by omega)]
      rcases Nat.lt_or_ge (n % 2 ^ size_power + 1) (2 ^ size_power) with
        hwrap | hwrap
      · -- no wrap: (n+1) % C = n % C + 1
        have hsucc : (n + 1) % 2 ^ size_power = n % 2 ^ size_power + 1 := by
          rw [← Nat.mod_add_mod]
          exact Nat.mod_eq_of_lt hwrap
        have hwp : (n % 2 ^ size_power + 1) % 2 ^ size_power =
            n % 2 ^ size_power + 1 := Nat.mod_eq_of_lt hwrap
        by_cases hCn : 2 ^ size_power ≤ n
        · -- already full
          have hfull : decide (2 ^ size_power ≤ n) = true := by
            simp [hCn]
          have hfull1 : decide (2 ^ size_power ≤ n + 1) = true := by
            simp
            omega
          rw [if_neg (by simp [hwp])]
          simp only [hfull, if_true, Option.getD_some, hwp]
          rw [if_neg (by simp)]
          simp only [DumpRing.mk.injEq, Option.some.injEq]
          refine ⟨by omega, ?_, trivial, by omega, hfull1.symm, by omega⟩
          funext i
          simp only [hsucc]
          by_cases hi1 : i = n % 2 ^ size_power
          · subst hi1
            rw [if_pos rfl, if_pos (by omega)]
            congr 1
            omega
          · rw [if_neg hi1]
            by_cases hi2 : i < n % 2 ^ size_power
            · rw [if_pos hi2, if_pos (by omega)]
              congr 1
              omega
            · rw [if_neg hi2]
              by_cases hi3 : i < min n (2 ^ size_power)
              · rw [if_pos hi3, if_neg (by omega), if_pos (by omega)]
                congr 1
                omega
              · rw [if_neg hi3, if_neg (by omega), if_neg (by omega)]
        · -- not yet full
          have hfull : decide (2 ^ size_power ≤ n) = false := by
            simp
            omega
          have hn1C : n + 1 < 2 ^ size_power := by
            have := Nat.mod_eq_of_lt (show n < 2 ^ size_power by omega)
            omega
          have hfull1 : decide (2 ^ size_power ≤ n + 1) = false := by
            simp
            omega
          have hmn : n % 2 ^ size_power = n :=
            Nat.mod_eq_of_lt (by omega)
          rw [if_neg (by simp [hwp])]
          simp only [hfull, if_false, Bool.false_eq_true]
          rw [if_neg (by
            intro hcontra
            rcases hcontra with ⟨hz, _⟩
            rw [hwp] at hz
            omega)]
          simp only [DumpRing.mk.injEq, Option.some.injEq]
          refine ⟨by omega, ?_, trivial, by omega, hfull1.symm, by omega⟩
          funext i
          simp only [hsucc]
          by_cases hi1 : i = n % 2 ^ size_power
          · subst hi1
            rw [if_pos rfl, if_pos (by omega)]
            congr 1
            omega
          · rw [if_neg hi1]
            by_cases hi2 : i < n % 2 ^ size_power
            · rw [if_pos hi2, if_pos (by omega)]
              congr 1
              omega
            · rw [if_neg hi2]
              rw [if_neg (by omega), if_neg (by omega), if_neg (by omega)]
      · -- wrap: n % C + 1 = C, so (n+1) % C = 0
        have hmC : n % 2 ^ size_power + 1 = 2 ^ size_power := by omega
        have hsucc : (n + 1) % 2 ^ size_power = 0 := by
          rw [← Nat.mod_add_mod, hmC, Nat.mod_self]
        have hwp : (n % 2 ^ size_power + 1) % 2 ^ size_power = 0 := by
          rw [hmC, Nat.mod_self]
        by_cases hCn : 2 ^ size_power ≤ n
        · have hfull : decide (2 ^ size_power ≤ n) = true := by simp [hCn]
          have hfull1 : decide (2 ^ size_power ≤ n + 1) = true := by
            simp
            omega
          rw [if_neg (by simp [hwp])]
          simp only [hfull, if_true, Option.getD_some, hwp]
          rw [if_neg (by simp)]
          simp only [DumpRing.mk.injEq, Option.some.injEq]
          refine ⟨by omega, ?_, trivial, by omega, hfull1.symm, by omega⟩
          funext i
          simp only [hsucc]
          by_cases hi1 : i = n % 2 ^ size_power
          · subst hi1
            rw [if_pos rfl, if_neg (by omega), if_pos (by omega)]
            congr 1
            omega
          · rw [if_neg hi1]
            by_cases hi2 : i < n % 2 ^ size_power
            · rw [if_pos hi2, if_neg (by omega), if_pos (by omega)]
              congr 1
              omega
            · rw [if_neg hi2]
              by_cases hi3 : i < min n (2 ^ size_power)
              · rw [if_pos hi3, if_neg (by omega), if_pos (by omega)]
                congr 1
                omega
              · rw [if_neg hi3, if_neg (by omega), if_neg (by omega)]
        · -- filling push: n + 1 = C, the ring becomes full
          have hfull : decide (2 ^ size_power ≤ n) = false := by
            simp
            omega
          have hneq : n + 1 = 2 ^ size_power := by
            have := Nat.mod_eq_of_lt (show n < 2 ^ size_power by omega)
            omega
          have hfull1 : decide (2 ^ size_power ≤ n + 1) = true := by
            simp
            omega
          have hmn : n % 2 ^ size_power = n :=
            Nat.mod_eq_of_lt (by omega)
          rw [if_neg (by simp [hwp])]
          simp only [hfull, if_false, Bool.false_eq_true]
          rw [if_pos (by
            refine ⟨?_, trivial⟩
            rw [hwp])]
          simp only [DumpRing.mk.injEq, Option.some.injEq]
          refine ⟨by omega, ?_, trivial, by omega, hfull1.symm, by omega⟩
          funext i
          simp only [hsucc]
          by_cases hi1 : i = n % 2 ^ size_power
          · subst hi1
            rw [if_pos rfl, if_neg (by omega), if_pos (by omega)]
            congr 1
            omega
          · rw [if_neg hi1]
            by_cases hi2 : i < n % 2 ^ size_power
            · rw [if_pos hi2, if_neg (by omega), if_pos (by omega)]
              congr 1
              omega
            · rw [if_neg hi2]
              rw [if_neg (by omega), if_neg (by omega), if_neg (by omega)]

/-- Mapping a function over an index range equals mapping dat over a
shifted count range when they agree pointwise. -/
lemma map_range_eq (k s : Nat) (f dat : Nat → α)
    (h : ∀ i, i < k → f i = dat (s + i)) :
    (List.range k).map f = (List.range' s k).map dat := by
  rw [List.range'_eq_map_range, List.map_map]
  apply List.map_congr_left
  intro a ha
  rw [List.mem_range] at ha
  exact h a ha

/-- Mapping over one index range equals mapping over another of the same
length when the functions agree pointwise under the offset. -/
lemma map_range'_eq (a k s : Nat) (f dat : Nat → α)
    (h : ∀ j, j < k → f (a + j) = dat (s + j)) :
    (List.range' a k).map f = (List.range' s k).map dat := by
  rw [List.range'_eq_map_range, List.range'_eq_map_range, List.map_map,
    List.map_map]
  apply List.map_congr_left
  intro j hj
  rw [List.mem_range] at hj
  exact h j hj

/-- The two consecutive views of a consecutively-filled ring concatenate to
the most recent min n C samples in strict count order. -/
lemma ringAfter_views (size_power c0 : Nat) (dat : Nat → α) (fill : α)
    (hp : 1 ≤ size_power) (n : Nat) (hn : 1 ≤ n) :
    (ringAfter size_power c0 dat fill n).consecutive_views.1 ++
      (ringAfter size_power c0 dat fill n).consecutive_views.2 =
    (List.range' (c0 + n - min n (2 ^ size_power))
      (min n (2 ^ size_power))).map dat := by
  have hC0 : 0 < 2 ^ size_power := Nat.pos_pow_of_pos _ (by norm_num)
  have hm_lt : n % 2 ^ size_power < 2 ^ size_power := Nat.mod_lt _ hC0
  have hm_le : n % 2 ^ size_power ≤ n := Nat.mod_le n _
  rw [ringAfter_eq_closed size_power c0 dat fill hp n hn]
  by_cases hfull : 2 ^ size_power ≤ n
  · -- full ring: older chunk from write_ptr, newer chunk below it
    have hdiv : 1 ≤ n / 2 ^ size_power := (Nat.one_le_div_iff hC0).mpr hfull
    have hmul : 2 ^ size_power * 1 ≤
        2 ^ size_power * (n / 2 ^ size_power) :=
      Nat.mul_le_mul_left _ hdiv
    rw [Nat.mul_one] at hmul
    have hmd := Nat.mod_add_div n (2 ^ size_power)
    have hmod : n - n % 2 ^ size_power ≥ 2 ^ size_power := by omega
    have hmin : min n (2 ^ size_power) = 2 ^ size_power := by omega
    simp only [ringClosed, DumpRing.consecutive_views,
      decide_eq_true hfull]
    rw [if_neg (by simp)]
    have hA : (List.range' (n % 2 ^ size_power)
        (2 ^ size_power - n % 2 ^ size_power)).map
          (fun i =>
            if i < n % 2 ^ size_power then
              dat (c0 + (n - n % 2 ^ size_power) + i)
            else if i < min n (2 ^ size_power) then
              dat (c0 + (n - n % 2 ^ size_power) - 2 ^ size_power + i)
            else fill) =
        (List.range' (c0 + n - 2 ^ size_power)
          (2 ^ size_power - n % 2 ^ size_power)).map dat := by
      apply map_range'_eq
      intro j hj
      rw [if_neg (by omega), if_pos (by omega)]
      congr 1
      omega
    have hB : (List.range (n % 2 ^ size_power)).map
          (fun i =>
            if i < n % 2 ^ size_power then
              dat (c0 + (n - n % 2 ^ size_power) + i)
            else if i < min n (2 ^ size_power) then
              dat (c0 + (n - n % 2 ^ size_power) - 2 ^ size_power + i)
            else fill) =
        (List.range' (c0 + n - n % 2 ^ size_power)
          (n % 2 ^ size_power)).map dat := by
      apply map_range_eq
      intro i hi
      rw [if_pos hi]
      congr 1
      omega
    rw [hA, hB, hmin]
    have e1 : 2 ^ size_power - n % 2 ^ size_power =
        (c0 + n - n % 2 ^ size_power) - (c0 + n - 2 ^ size_power) := by omega
    have e2 : n % 2 ^ size_power =
        (c0 + n) - (c0 + n - n % 2 ^ size_power) := by omega
    have e3 : 2 ^ size_power = (c0 + n) - (c0 + n - 2 ^ size_power) := by
      omega
    rw [← List.map_append]
    congr 1
    calc List.range' (c0 + n - 2 ^ size_power)
          (2 ^ size_power - n % 2 ^ size_power) ++
        List.range' (c0 + n - n % 2 ^ size_power) (n % 2 ^ size_power)
        = List.range' (c0 + n - 2 ^ size_power)
            ((c0 + n - n % 2 ^ size_power) - (c0 + n - 2 ^ size_power)) ++
          List.range' (c0 + n - n % 2 ^ size_power)
            ((c0 + n) - (c0 + n - n % 2 ^ size_power)) := by
          rw [← e1, ← e2]
      _ = List.range' (c0 + n - 2 ^ size_power)
            ((c0 + n) - (c0 + n - 2 ^ size_power)) :=
          range'_join _ _ _ (by omega) (by omega)
      _ = List.range' (c0 + n - 2 ^ size_power) (2 ^ size_power) := by
          rw [← e3]
  · -- not yet full: a single chunk from index 0
    have hmod : n % 2 ^ size_power = n := Nat.mod_eq_of_lt (by omega)
    have hmin : min n (2 ^ size_power) = n := by omega
    simp only [ringClosed, DumpRing.consecutive_views,
      decide_eq_false hfull]
    rw [if_pos trivial]
    simp only [List.append_nil, hmin, hmod]
    have : c0 + n - n = c0 := by omega
    rw [this]
    apply map_range_eq
    intro i hi
    rw [if_pos (by omega)]
    congr 1
    omega

/-- C2 counterexample: on a capacity-1 ring (size_power 0) a single push
leaves full = false although n = C = 1, and on a capacity-2 ring two pushes
leave the ring full while the second consecutive view is empty, contrary
to the claim that the second view is empty exactly when the ring is not
full. -/
theorem c2_counterexample :
    ((ringAfter 0 0 (fun i => i) 99 1).full = false ∧ 2 ^ 0 ≤ 1) ∧
    ((ringAfter 1 0 (fun i => i) 99 2).full = true ∧
      (ringAfter 1 0 (fun i => i) 99 2).consecutive_views.2 = []) := by
  refine ⟨⟨rfl, by decide⟩, rfl, rfl⟩

/-- C2 amended: for capacity C = 2^p with p >= 1 and n >= 1 pushes of
consecutive counts from c0 on a fresh ring: full holds iff n >= C; oldest
is c0 + (n - C) truncated at c0; last is c0 + n - 1; the two consecutive
views concatenate to the most recent min n C samples in strict count
order; and the second view is empty iff the ring is not full or n is a
multiple of C (on the wrap pushes the write pointer is 0 and the second
view, though the ring is full, is empty).  For C = 1 the invariants fail
(see the counterexample): the full flag is set one push late and oldest
thereafter lags the true oldest sample by one. -/
theorem c2_ring_invariants (size_power c0 n : Nat) (dat : Nat → α)
    (fill : α) (hp : 1 ≤ size_power) (hn : 1 ≤ n) :
    ((ringAfter size_power c0 dat fill n).full = true ↔
      2 ^ size_power ≤ n) ∧
    (ringAfter size_power c0 dat fill n).oldest =
      some (c0 + (n - 2 ^ size_power)) ∧
    (ringAfter size_power c0 dat fill n).last = some (c0 + n - 1) ∧
    ((ringAfter size_power c0 dat fill n).consecutive_views.1 ++
      (ringAfter size_power c0 dat fill n).consecutive_views.2 =
      (List.range' (c0 + n - min n (2 ^ size_power))
        (min n (2 ^ size_power))).map dat) ∧
    ((ringAfter size_power c0 dat fill n).consecutive_views.2 = [] ↔
      ((ringAfter size_power c0 dat fill n).full = false ∨
        n % 2 ^ size_power = 0)) := by
  have hC0 : 0 < 2 ^ size_power := Nat.pos_pow_of_pos _ (by norm_num)
  have hcl := ringAfter_eq_closed size_power c0 dat fill hp n hn
  refine ⟨?_, ?_, ?_, ringAfter_views size_power c0 dat fill hp n hn, ?_⟩
  · rw [hcl]
    simp [ringClosed]
  · rw [hcl]
    rfl
  · rw [hcl]
    rfl
  · rw [hcl]
    by_cases hfull : 2 ^ size_power ≤ n
    · simp only [ringClosed, DumpRing.consecutive_views,
        decide_eq_true hfull]
      rw [if_neg (by simp)]
      constructor
      · intro h
        right
        have := congrArg List.length h
        simp only [List.length_map, List.length_range, List.length_nil]
          at this
        exact this
      · intro h
        rcases h with h | h
        · exact absurd h (by simp)
        · simp [h]
    · simp only [ringClosed, DumpRing.consecutive_views,
        decide_eq_false hfull]
      rw [if_pos trivial]
      simp

/-- Witness for c2_ring_invariants at size_power 1 (capacity 2), c0 = 5,
n = 3 pushes. -/
theorem c2_ring_invariants_witness :
    (1 ≤ 1 ∧ 1 ≤ 3) ∧
    (((ringAfter 1 5 (fun i => i) 99 3).full = true ↔ 2 ^ 1 ≤ 3) ∧
    (ringAfter 1 5 (fun i => i) 99 3).oldest = some (5 + (3 - 2 ^ 1)) ∧
    (ringAfter 1 5 (fun i => i) 99 3).last = some (5 + 3 - 1) ∧
    ((ringAfter 1 5 (fun i => i) 99 3).consecutive_views.1 ++
      (ringAfter 1 5 (fun i => i) 99 3).consecutive_views.2 =
      (List.range' (5 + 3 - min 3 (2 ^ 1))
        (min 3 (2 ^ 1))).map (fun i => i)) ∧
    ((ringAfter 1 5 (fun i => i) 99 3).consecutive_views.2 = [] ↔
      ((ringAfter 1 5 (fun i => i) 99 3).full = false ∨
        3 % 2 ^ 1 = 0))) :=
  ⟨⟨by decide, by decide⟩,
    c2_ring_invariants 1 5 3 (fun i => i) 99 (by decide) (by decide)⟩

/-!  ## Dumping a window of the ring (src/dumps.rs, DumpRing::dump)

The netcdf serialization is modelled by the list of time slots written to
the voltages variable, assembled according to the source's slicing
arithmetic on axis 0 (time).  ndarray slicing with an out-of-range bound
panics; a panic is a distinguished outcome.  The coordinate variables
(time, freq, pol, reim) and the chunking setup do not interact with the
claims and are omitted. -/

/-- Outcome of a dump call: no file created (the warn-and-return paths), a
file whose voltages variable holds the given time slots, or a panic from
out-of-bounds slicing. -/
inductive DumpOutcome (α : Type) where
  | noFile : DumpOutcome α
  | file (voltages : List α) : DumpOutcome α
  | panic : DumpOutcome α
deriving DecidableEq

/-- Model of ndarray slicing s![a..=b, ..] on axis 0: panics unless
a <= b + 1 <= length. -/
def sliceIncl (l : List α) (a b : Nat) : Option (List α) :=
  if a ≤ b + 1 ∧ b + 1 ≤ l.length then some ((l.drop a).take (b + 1 - a))
  else none

/-- Model of ndarray slicing s![a.., ..] on axis 0: panics unless
a <= length. -/
def sliceFrom (l : List α) (a : Nat) : Option (List α) :=
  if a ≤ l.length then some (l.drop a) else none

/-- Model of ndarray slicing s![..=b, ..] on axis 0: panics unless
b + 1 <= length. -/
def sliceToIncl (l : List α) (b : Nat) : Option (List α) :=
  if b + 1 ≤ l.length then some (l.take (b + 1)) else none

/-- DumpRing::dump (src/dumps.rs lines 135-261).  The three write cases
follow the source index arithmetic exactly; in particular the spanning
case computes the second-chunk stop index as
stop_sample - oldest + a_len (line 236, with a plus sign), and the size
sanity check at lines 239-243 only logs an error without changing the
result, so it does not appear in the outcome.  The u64 subtraction
producing this_dump_size before the bounds check is harmless in release
semantics because the bounds check rejects start > stop. -/
def DumpRing.dump (r : DumpRing α) (start_sample stop_sample : Nat) :
    DumpOutcome α :=
  match r.oldest with
  | none => .noFile
  | some oldest =>
    let newest := oldest + r.capacity - 1
    if start_sample < oldest ∨ start_sample > newest ∨ stop_sample < oldest
        ∨ stop_sample > newest ∨ start_sample > stop_sample then
      .noFile
    else
      let a := r.consecutive_views.1
      let b := r.consecutive_views.2
      let a_len := a.length
      if oldest + a_len > stop_sample then
        match sliceIncl a (start_sample - oldest) (stop_sample - oldest) with
        | some s => .file s
        | none => .panic
      else if oldest + a_len > start_sample then
        match sliceFrom a (start_sample - oldest),
              sliceToIncl b (stop_sample - oldest + a_len) with
        | some aS, some bS => .file (aS ++ bS)
        | _, _ => .panic
      else
        let oldest_b := oldest + a_len
        match sliceIncl b (start_sample - oldest_b)
            (stop_sample - oldest_b) with
        | some s => .file s
        | none => .panic

/-- C3 (code bug): on a full capacity-4 ring holding counts 100..106
(views A = [103], B = [104, 105, 106]), the spanning dump request
[103, 104] writes slices of total length 4 instead of
stop - start + 1 = 2: the code computes the B-view stop index as
stop - oldest + a_len = 4 (slicing B up to index 2 after clamping by the
take) instead of stop - (oldest + a_len) = 0, so the written window is
[103, 104, 105, 106] and the source's own size sanity check reports an
internal error. -/
theorem c3_dump_spanning_bug :
    (ringAfter 2 100 (fun i => i) 0 7).consecutive_views.1 = [103] ∧
    (ringAfter 2 100 (fun i => i) 0 7).consecutive_views.2 =
      [104, 105, 106] ∧
    (ringAfter 2 100 (fun i => i) 0 7).oldest = some 103 ∧
    (ringAfter 2 100 (fun i => i) 0 7).dump 103 104 =
      DumpOutcome.file [103, 104, 105, 106] ∧
    ¬ ([103, 104, 105, 106] : List Nat).length = 104 - 103 + 1 ∧
    104 - (103 + 1) = 0 := by
  refine ⟨rfl, rfl, rfl, rfl, by decide, rfl⟩

/-- C10: on a partially-filled ring (n < C pushes), the bounds check of
dump compares against newest = oldest + capacity - 1 regardless of
fullness, so a request whose stop lies beyond the last pushed sample but
within oldest + C - 1 is not rejected by the warn-and-return path; the
subsequent slicing of the empty second view is out of bounds and the dump
panics instead of refusing cleanly. -/
theorem c10_dump_bounds_check_ignores_fill (size_power c0 n start stop : Nat)
    (dat : Nat → α) (fill : α)
    (hp : 1 ≤ size_power) (hn : 1 ≤ n) (hnC : n < 2 ^ size_power)
    (hstart : c0 ≤ start) (hss : start ≤ stop)
    (hstop1 : c0 + n - 1 < stop) (hstop2 : stop ≤ c0 + 2 ^ size_power - 1) :
    (ringAfter size_power c0 dat fill n).dump start stop ≠
      DumpOutcome.noFile ∧
    (ringAfter size_power c0 dat fill n).dump start stop =
      DumpOutcome.panic := by
  have hcl := ringAfter_eq_closed size_power c0 dat fill hp n hn
  have hC2 : 2 ≤ 2 ^ size_power := by
    calc 2 = 2 ^ 1 := rfl
    _ ≤ 2 ^ size_power := Nat.pow_le_pow_right (by norm_num) hp
  have hfull : decide (2 ^ size_power ≤ n) = false := by
    simp
    omega
  have hmod : n % 2 ^ size_power = n := Nat.mod_eq_of_lt hnC
  have hdump : (ringAfter size_power c0 dat fill n).dump start stop =
      DumpOutcome.panic := by
    rw [hcl]
    simp only [DumpRing.dump, ringClosed, DumpRing.consecutive_views,
      hfull, Bool.false_eq_true]
    rw [if_pos trivial]
    simp only [List.length_map, List.length_range, hmod]
    rw [if_neg (by omega)]
    rw [if_neg (by omega)]
    by_cases hcase2 : c0 + (n - 2 ^ size_power) + n > start
    · rw [if_pos hcase2]
      simp only [sliceFrom, sliceToIncl, List.length_map, List.length_range,
        hmod, List.length_nil]
      rw [if_pos (by omega), if_neg (by omega)]
    · rw [if_neg hcase2]
      simp only [sliceIncl, List.length_nil]
      rw [if_neg (by omega)]
  constructor
  · rw [hdump]
    intro h
    exact DumpOutcome.noConfusion h
  · exact hdump

/-- Witness for c10_dump_bounds_check_ignores_fill: capacity 2 with one
push of count 0, then a dump request for [0, 1]. -/
theorem c10_dump_bounds_check_ignores_fill_witness :
    (1 ≤ 1 ∧ 1 ≤ 1 ∧ 1 < 2 ^ 1 ∧ 0 ≤ 0 ∧ 0 ≤ 1 ∧ 0 + 1 - 1 < 1 ∧
      1 ≤ 0 + 2 ^ 1 - 1) ∧
    ((ringAfter 1 0 (fun i => i) 99 1).dump 0 1 ≠ DumpOutcome.noFile ∧
     (ringAfter 1 0 (fun i => i) 99 1).dump 0 1 = DumpOutcome.panic) :=
  ⟨by decide,
    c10_dump_bounds_check_ignores_fill 1 0 1 0 1 (fun i => i) 99
      (by decide) (by decide) (by decide) (by decide) (by decide)
      (by decide) (by decide)⟩

/-!  ## Trigger-driven dumps (src/dumps.rs, DumpRing::trigger_dump)

The window arithmetic is on u64; we model the release-build wrapping
semantics explicitly mod 2^64.  A checked (debug) build instead panics at
the subtraction when it underflows; the underflow condition itself is
stated alongside. -/

/-- The u64 modulus. -/
def U64MOD : Nat := 2 ^ 64

/-- Wrapping u64 addition. -/
def wadd (a b : Nat) : Nat := (a + b) % U64MOD

/-- Wrapping u64 subtraction (for operands below 2^64). -/
def wsub (a b : Nat) : Nat := (U64MOD + a - b) % U64MOD

/-- The window start computed at src/dumps.rs line 293:
true_sample - DUMP_SIZE / 2 + 1 in wrapping u64 arithmetic. -/
def beginSample (t : Nat) : Nat :=
  wadd (wsub (t % U64MOD) (DUMP_SIZE / 2)) 1

/-- The window end computed at src/dumps.rs line 294:
true_sample + DUMP_SIZE / 2 in wrapping u64 arithmetic. -/
def endSample (t : Nat) : Nat :=
  wadd (t % U64MOD) (DUMP_SIZE / 2)

/-- Outcome of DumpRing::trigger_dump: an error (bail), or a delegated
dump over the selected window. -/
inductive TriggerOutcome (α : Type) where
  | err : TriggerOutcome α
  | dumped (lo hi : Nat) (result : DumpOutcome α) : TriggerOutcome α
deriving DecidableEq

/-- DumpRing::trigger_dump (src/dumps.rs lines 264-318): bail when the
ring is empty; dump the whole ring when the capacity is at most
DUMP_SIZE; otherwise resolve the trigger to true_sample, build the
biased window, bail when the window misses the buffer entirely, clip a
partially covered window, and delegate to dump.  The filename formatting
is I/O and is not modelled. -/
def DumpRing.trigger_dump (r : DumpRing α) (itime ds first : Nat) :
    TriggerOutcome α :=
  match r.oldest with
  | none => .err
  | some oldest =>
    let newest := oldest + r.capacity - 1
    if r.capacity ≤ DUMP_SIZE then
      .dumped oldest newest (r.dump oldest newest)
    else
      let true_sample := (itime * ds + first) % U64MOD
      let begin0 := beginSample true_sample
      let end0 := endSample true_sample
      if oldest > end0 then .err
      else if newest < begin0 then .err
      else
        let begin1 := if oldest > begin0 then oldest else begin0
        let end1 := if newest < end0 then newest else end0
        .dumped begin1 end1 (r.dump begin1 end1)

/-- For t at least DUMP_SIZE/2 - 1 the wrapping window start equals the
intended value t - DUMP_SIZE/2 + 1. -/
lemma beginSample_eq (t : Nat) (h1 : DUMP_SIZE / 2 ≤ t + 1)
    (h2 : t < U64MOD) :
    beginSample t = t + 1 - DUMP_SIZE / 2 := by
  have hm : t % U64MOD = t := Nat.mod_eq_of_lt h2
  have hU : (131072 : Nat) < U64MOD := by
    unfold U64MOD
    norm_num
  have hDS : DUMP_SIZE / 2 = 131072 := by norm_num [DUMP_SIZE]
  unfold beginSample wadd wsub
  rw [hm, hDS]
  rcases Nat.lt_or_ge t 131072 with hc | hc
  swap
  · have e1 : U64MOD + t - 131072 = U64MOD + (t - 131072) := by omega
    rw [e1, Nat.add_mod_left]
    have e2 : (t - 131072) % U64MOD = t - 131072 :=
      Nat.mod_eq_of_lt (by omega)
    rw [e2]
    have e3 : t - 131072 + 1 = t + 1 - 131072 := by omega
    rw [e3]
    exact Nat.mod_eq_of_lt (by omega)
  · have ht : t = 131071 := by omega
    subst ht
    have e1 : (U64MOD + 131071 - 131072) % U64MOD = U64MOD - 1 := by
      have : U64MOD + 131071 - 131072 = U64MOD - 1 := by omega
      rw [this]
      exact Nat.mod_eq_of_lt (by omega)
    rw [e1]
    have e2 : U64MOD - 1 + 1 = U64MOD := by
      have : 1 ≤ U64MOD := by unfold U64MOD; norm_num
      omega
    rw [e2, Nat.mod_self]

/-- The wrapping window end equals the intended value when it fits. -/
lemma endSample_eq (t : Nat) (h2 : t + DUMP_SIZE / 2 < U64MOD) :
    endSample t = t + DUMP_SIZE / 2 := by
  have hm : t % U64MOD = t := Nat.mod_eq_of_lt (by omega)
  unfold endSample wadd
  rw [hm]
  exact Nat.mod_eq_of_lt h2

/-- For t below DUMP_SIZE/2 - 1 the wrapping window start wraps to the top
of the u64 range. -/
lemma beginSample_wraps (t : Nat) (h1 : t + 1 < DUMP_SIZE / 2) :
    beginSample t = U64MOD - DUMP_SIZE / 2 + t + 1 := by
  have hDS : DUMP_SIZE / 2 = 131072 := by norm_num [DUMP_SIZE]
  have hU : (131072 : Nat) < U64MOD := by
    unfold U64MOD
    norm_num
  have hm : t % U64MOD = t := Nat.mod_eq_of_lt (by omega)
  unfold beginSample wadd wsub
  rw [hm, hDS]
  have e1 : (U64MOD + t - 131072) % U64MOD = U64MOD + t - 131072 :=
    Nat.mod_eq_of_lt (by omega)
  rw [e1]
  have e2 : U64MOD + t - 131072 + 1 = U64MOD - 131072 + t + 1 := by omega
  rw [e2]
  exact Nat.mod_eq_of_lt (by omega)

/-- C4: trigger handling on a non-empty ring.  The trigger resolves to
true_sample = itime * downsample_factor + first_processed_count; when the
capacity is at most DUMP_SIZE the whole buffer [oldest, oldest + C - 1] is
dumped; otherwise the biased window
[true_sample - DUMP_SIZE/2 + 1, true_sample + DUMP_SIZE/2] is requested,
the call errors exactly when that window lies entirely outside
[oldest, oldest + C - 1], and a partially covered window is clipped to the
covered range and dumped.  An empty ring always errors. -/
theorem c4_trigger_dump_window (r : DumpRing α) (o itime ds first : Nat)
    (ho : r.oldest = some o)
    (ht : DUMP_SIZE / 2 ≤ itime * ds + first + 1)
    (htU : itime * ds + first + DUMP_SIZE / 2 < U64MOD) :
    ((itime * ds + first) % U64MOD = itime * ds + first) ∧
    (∀ r2 : DumpRing α, r2.oldest = none →
      r2.trigger_dump itime ds first = TriggerOutcome.err) ∧
    (r.capacity ≤ DUMP_SIZE →
      r.trigger_dump itime ds first =
        TriggerOutcome.dumped o (o + r.capacity - 1)
          (r.dump o (o + r.capacity - 1))) ∧
    (DUMP_SIZE < r.capacity →
      ((r.trigger_dump itime ds first = TriggerOutcome.err ↔
        (itime * ds + first + DUMP_SIZE / 2 < o ∨
         o + r.capacity - 1 < itime * ds + first + 1 - DUMP_SIZE / 2)) ∧
       (¬ (itime * ds + first + DUMP_SIZE / 2 < o ∨
           o + r.capacity - 1 < itime * ds + first + 1 - DUMP_SIZE / 2) →
        r.trigger_dump itime ds first =
          TriggerOutcome.dumped
            (max (itime * ds + first + 1 - DUMP_SIZE / 2) o)
            (min (itime * ds + first + DUMP_SIZE / 2) (o + r.capacity - 1))
            (r.dump
              (max (itime * ds + first + 1 - DUMP_SIZE / 2) o)
              (min (itime * ds + first + DUMP_SIZE / 2)
                (o + r.capacity - 1)))))) := by
  have hmod : (itime * ds + first) % U64MOD = itime * ds + first :=
    Nat.mod_eq_of_lt (by omega)
  have hb : beginSample ((itime * ds + first) % U64MOD) =
      itime * ds + first + 1 - DUMP_SIZE / 2 := by
    rw [hmod]
    exact beginSample_eq _ ht (by omega)
  have he : endSample ((itime * ds + first) % U64MOD) =
      itime * ds + first + DUMP_SIZE / 2 := by
    rw [hmod]
    exact endSample_eq _ htU
  refine ⟨hmod, ?_, ?_, ?_⟩
  · intro r2 h2
    simp only [DumpRing.trigger_dump, h2]
  · intro hcap
    simp only [DumpRing.trigger_dump, ho]
    rw [if_pos hcap]
  · intro hcap
    simp only [DumpRing.trigger_dump, ho, hb, he]
    rw [if_neg (by omega)]
    constructor
    · by_cases h1 : o > itime * ds + first + DUMP_SIZE / 2
      · rw [if_pos h1]
        simp
        omega
      · rw [if_neg h1]
        by_cases h2 : o + r.capacity - 1 <
            itime * ds + first + 1 - DUMP_SIZE / 2
        · rw [if_pos h2]
          simp
          omega
        · rw [if_neg h2]
          constructor
          · intro hcontra
            exact absurd hcontra (by simp)
          · intro hcontra
            omega
    · intro hout
      rw [if_neg (by omega), if_neg (by omega)]
      have hx : (if o > itime * ds + first + 1 - DUMP_SIZE / 2 then o
          else itime * ds + first + 1 - DUMP_SIZE / 2) =
          max (itime * ds + first + 1 - DUMP_SIZE / 2) o := by
        rw [Nat.max_def]
        split_ifs <;> omega
      have hy : (if o + r.capacity - 1 < itime * ds + first + DUMP_SIZE / 2
          then o + r.capacity - 1
          else itime * ds + first + DUMP_SIZE / 2) =
          min (itime * ds + first + DUMP_SIZE / 2) (o + r.capacity - 1) := by
        rw [Nat.min_def]
        split_ifs <;> omega
      rw [hx, hy]

/-- The concrete ring used by the c4 witness: capacity 2^19, full,
covering counts 1000000 to 1524287. -/
def c4WitnessRing : DumpRing Nat :=
  { write_ptr := 0, buffer := fun _ => 0, capacity := 2 ^ 19,
    oldest := some 1000000, full := true, last := some 1524287 }

/-- Witness for c4_trigger_dump_window: the ring c4WitnessRing with a
trigger resolving to true_sample 1012000, whose window is clipped at the
left edge. -/
theorem c4_trigger_dump_window_witness :
    (c4WitnessRing.oldest = some 1000000 ∧
      DUMP_SIZE / 2 ≤ 3000 * 4 + 1000000 + 1 ∧
      3000 * 4 + 1000000 + DUMP_SIZE / 2 < U64MOD) ∧
    (((3000 * 4 + 1000000) % U64MOD = 3000 * 4 + 1000000) ∧
    (∀ r2 : DumpRing Nat, r2.oldest = none →
      r2.trigger_dump 3000 4 1000000 = TriggerOutcome.err) ∧
    (c4WitnessRing.capacity ≤ DUMP_SIZE →
      c4WitnessRing.trigger_dump 3000 4 1000000 =
        TriggerOutcome.dumped 1000000 (1000000 + c4WitnessRing.capacity - 1)
          (c4WitnessRing.dump 1000000
            (1000000 + c4WitnessRing.capacity - 1))) ∧
    (DUMP_SIZE < c4WitnessRing.capacity →
      ((c4WitnessRing.trigger_dump 3000 4 1000000 = TriggerOutcome.err ↔
        (3000 * 4 + 1000000 + DUMP_SIZE / 2 < 1000000 ∨
         1000000 + c4WitnessRing.capacity - 1 <
            3000 * 4 + 1000000 + 1 - DUMP_SIZE / 2)) ∧
       (¬ (3000 * 4 + 1000000 + DUMP_SIZE / 2 < 1000000 ∨
           1000000 + c4WitnessRing.capacity - 1 <
              3000 * 4 + 1000000 + 1 - DUMP_SIZE / 2) →
        c4WitnessRing.trigger_dump 3000 4 1000000 =
          TriggerOutcome.dumped
            (max (3000 * 4 + 1000000 + 1 - DUMP_SIZE / 2) 1000000)
            (min (3000 * 4 + 1000000 + DUMP_SIZE / 2)
              (1000000 + c4WitnessRing.capacity - 1))
            (c4WitnessRing.dump
              (max (3000 * 4 + 1000000 + 1 - DUMP_SIZE / 2) 1000000)
              (min (3000 * 4 + 1000000 + DUMP_SIZE / 2)
                (1000000 + c4WitnessRing.capacity - 1))))))) :=
  ⟨⟨rfl, by decide, by decide⟩,
    c4_trigger_dump_window c4WitnessRing 1000000 3000 4 1000000 rfl
      (by decide) (by decide)⟩

/-- C9: when capacity exceeds DUMP_SIZE, the window start is the unchecked
u64 expression true_sample - DUMP_SIZE/2 + 1, well-defined only when
true_sample is at least DUMP_SIZE/2 - 1.  Below that, the subtraction
underflows: a checked build panics (the subtrahend exceeds true_sample) and
a release build wraps to a value above 2^63 instead of clipping the window
start at zero; any realistic ring then rejects the trigger as coming from
the future. -/
theorem c9_trigger_window_underflow (itime ds first : Nat)
    (hlt : itime * ds + first + 1 < DUMP_SIZE / 2) :
    (itime * ds + first < DUMP_SIZE / 2) ∧
    beginSample (itime * ds + first) =
      U64MOD - DUMP_SIZE / 2 + (itime * ds + first) + 1 ∧
    2 ^ 63 < beginSample (itime * ds + first) ∧
    (∀ t : Nat, DUMP_SIZE / 2 ≤ t + 1 → t + DUMP_SIZE / 2 < U64MOD →
      beginSample t = t + 1 - DUMP_SIZE / 2) ∧
    (∀ (r : DumpRing α) (o : Nat), r.oldest = some o →
      DUMP_SIZE < r.capacity →
      o ≤ itime * ds + first + DUMP_SIZE / 2 →
      o + r.capacity - 1 < 2 ^ 63 →
      r.trigger_dump itime ds first = TriggerOutcome.err) := by
  have hDS : DUMP_SIZE / 2 = 131072 := by norm_num [DUMP_SIZE]
  have hUval : U64MOD = 18446744073709551616 := by norm_num [U64MOD]
  have hwrap := beginSample_wraps (itime * ds + first) hlt
  have hmod : (itime * ds + first) % U64MOD = itime * ds + first :=
    Nat.mod_eq_of_lt (by omega)
  refine ⟨by omega, hwrap, by omega,
    fun t h1 h2 => beginSample_eq t h1 (by omega),
    ?_⟩
  intro r o ho hcap hlo hhi
  simp only [DumpRing.trigger_dump, ho, hmod]
  rw [if_neg (by omega)]
  have he : endSample (itime * ds + first) =
      itime * ds + first + DUMP_SIZE / 2 :=
    endSample_eq _ (by omega)
  rw [he, hwrap]
  rw [if_neg (by omega), if_pos (by omega)]

/-- Witness for c9_trigger_window_underflow: a trigger at itime 0 with
downsample factor 4 and first_processed_count 0 resolves to true_sample 0,
far below DUMP_SIZE/2 - 1; a 2^19-capacity ring holding counts from 0
rejects it. -/
theorem c9_trigger_window_underflow_witness :
    (0 * 4 + 0 + 1 < DUMP_SIZE / 2) ∧
    ((0 * 4 + 0 < DUMP_SIZE / 2) ∧
    beginSample (0 * 4 + 0) = U64MOD - DUMP_SIZE / 2 + (0 * 4 + 0) + 1 ∧
    2 ^ 63 < beginSample (0 * 4 + 0) ∧
    (∀ t : Nat, DUMP_SIZE / 2 ≤ t + 1 → t + DUMP_SIZE / 2 < U64MOD →
      beginSample t = t + 1 - DUMP_SIZE / 2) ∧
    (∀ (r : DumpRing Nat) (o : Nat), r.oldest = some o →
      DUMP_SIZE < r.capacity →
      o ≤ 0 * 4 + 0 + DUMP_SIZE / 2 →
      o + r.capacity - 1 < 2 ^ 63 →
      r.trigger_dump 0 4 0 = TriggerOutcome.err)) :=
  ⟨by decide, c9_trigger_window_underflow 0 4 0 (by decide)⟩

/-!  ## Stokes-I and pulse injection (src/common.rs, src/injection.rs)

A payload's channel data is modelled per polarization as a function from
the channel index to the (re, im) pair of i8 values (as Int).  The
transmuted [i8; 4096] slices interleave them: index 2c is re, 2c + 1 is
im. -/

/-- Channel data of one payload: each polarization maps the channel index
to its (re, im) pair. -/
@[ext]
structure Payload8 where
  pol_a : Nat → Int × Int
  pol_b : Nat → Int × Int

/-- The all-zero payload. -/
def payloadZero : Payload8 :=
  { pol_a := fun _ => (0, 0), pol_b := fun _ => (0, 0) }

/-- A polarization as the transmuted i8 slice seen by the kernels: index
2c is the real part of channel c, index 2c + 1 its imaginary part. -/
def toSlice (p : Nat → Int × Int) : Nat → Int :=
  fun i => if i % 2 = 0 then (p (i / 2)).1 else (p (i / 2)).2

/-- Model of simd_stokes (src/common.rs lines 95-139): with x86_64_v3 the
AVX2 kernel sign-extends each int8, squares and horizontally adds the
(re, im) pairs per 32-bit lane (madd_epi16), adds the two polarizations,
converts to f32 and divides by 16384 - per channel c this is exactly
((a[2c]^2 + a[2c+1]^2) + (b[2c]^2 + b[2c+1]^2)) / 16384.  All arithmetic
is exact (the integer sum is at most 4 * 127^2 = 64516 < 2^24 and the
divisor is 2^14), so the f32 lanes are modelled by rationals.  Without
x86_64_v3 the function panics (none): there is no scalar fallback. -/
def simd_stokes (hasV3 : Bool) (a b : Nat → Int) : Option (List ℚ) :=
  if hasV3 then
    some ((List.range CHANNELS).map (fun c =>
      ((((a (2 * c)) ^ 2 + (a (2 * c + 1)) ^ 2 +
        ((b (2 * c)) ^ 2 + (b (2 * c + 1)) ^ 2)) : Int) : ℚ) / 16384))
  else none

/-- stokes_i (src/common.rs lines 141-145): transmute both polarizations
and call the kernel. -/
def stokes_i (hasV3 : Bool) (pl : Payload8) : Option (List ℚ) :=
  simd_stokes hasV3 (toSlice pl.pol_a) (toSlice pl.pol_b)

/-- Modelled from the spec: the straightforward scalar Stokes-I
computation, (norm-squared of a[c] plus norm-squared of b[c]) / 16384,
channel by channel. -/
def scalarStokesSpec (pl : Payload8) : List ℚ :=
  (List.range CHANNELS).map (fun c =>
    ((((pl.pol_a c).1 ^ 2 + (pl.pol_a c).2 ^ 2 +
      ((pl.pol_b c).1 ^ 2 + (pl.pol_b c).2 ^ 2)) : Int) : ℚ) / 16384)

/-- C6 counterexample: on hardware without the AVX2 (x86_64_v3) path the
Stokes function panics instead of computing anything - no scalar fallback
exists, so it cannot produce the scalar result. -/
theorem c6_counterexample :
    stokes_i false payloadZero = none ∧
    stokes_i false payloadZero ≠ some (scalarStokesSpec payloadZero) :=
  ⟨rfl, fun h => Option.noConfusion h⟩

/-- C6 amended: with the AVX2 path present, the SIMD Stokes result equals
the straightforward scalar computation exactly (channel c holds
((re_a^2 + im_a^2) + (re_b^2 + im_b^2)) / 16384, exact in rational
arithmetic, hence within one ULP - indeed zero ULP - of the scalar f32
value); on hardware without x86_64_v3 the function panics rather than
falling back to a scalar implementation. -/
theorem c6_simd_stokes_exact (pl : Payload8) :
    stokes_i true pl = some (scalarStokesSpec pl) ∧
    stokes_i false pl = none := by
  constructor
  · have h : stokes_i true pl =
        some ((List.range CHANNELS).map (fun c =>
          ((((toSlice pl.pol_a (2 * c)) ^ 2 +
            (toSlice pl.pol_a (2 * c + 1)) ^ 2 +
            ((toSlice pl.pol_b (2 * c)) ^ 2 +
              (toSlice pl.pol_b (2 * c + 1)) ^ 2)) : Int) : ℚ) / 16384)) :=
      rfl
    rw [h]
    unfold scalarStokesSpec
    refine congrArg some ?_
    apply List.map_congr_left
    intro c _
    have h1 : 2 * c % 2 = 0 := by omega
    have h2 : 2 * c / 2 = c := by omega
    have h3 : ¬ (2 * c + 1) % 2 = 0 := by omega
    have h4 : (2 * c + 1) / 2 = c := by omega
    simp [toSlice, h1, h2, h3, h4]
  · rfl

/-- Wrapping i8 addition result: reduce an Int into [-128, 127] modulo
256, as _mm256_add_epi8 does on each lane. -/
def wrap8 (x : Int) : Int := (x + 128) % 256 - 128

/-- Model of simd_injection (src/injection.rs lines 75-121): with
x86_64_v3 the kernel interleaves the 2048 pulse bytes with zeros to match
the (re, im) layout and adds them with wrapping i8 addition into the
payload slice; the 128 chunks of 16 channels cover every channel below
CHANNELS and no others, and each imaginary lane receives an added zero.
Without x86_64_v3 it panics (none). -/
def simd_injection (hasV3 : Bool) (live : Nat → Int × Int)
    (injection : Nat → Int) : Option (Nat → Int × Int) :=
  if hasV3 then
    some (fun c => if c < CHANNELS then
      (wrap8 ((live c).1 + injection c), wrap8 ((live c).2 + 0))
    else live c)
  else none

/-- inject (src/injection.rs lines 124-132): run the kernel on both
polarizations with the same pulse row. -/
def inject (hasV3 : Bool) (pl : Payload8) (sample : Nat → Int) :
    Option Payload8 :=
  match simd_injection hasV3 pl.pol_a sample,
        simd_injection hasV3 pl.pol_b sample with
  | some a, some b => some { pol_a := a, pol_b := b }
  | _, _ => none

/-- Membership of the i8 range. -/
def isI8 (x : Int) : Prop := -128 ≤ x ∧ x ≤ 127

/-- The channel-wise negation of a pulse row (exact in i8 when no entry is
-128). -/
def negI8 (s : Nat → Int) : Nat → Int := fun c => -s c

/-- Reducing an in-range value is the identity. -/
lemma wrap8_eq (x : Int) (h : isI8 x) : wrap8 x = x := by
  unfold wrap8
  unfold isI8 at h
  omega

/-- C7: injecting a pulse row and then its negation restores the payload
exactly when no per-channel real-part addition leaves the i8 range (and
no row entry is -128, so that the negated row is itself an i8 row); and
inject never modifies any imaginary component: for every payload and every
row, with or without overflow on the real parts, the imaginary parts of
both polarizations are unchanged on every channel. -/
theorem c7_inject_involution_and_im_untouched :
    (∀ (pl : Payload8) (s : Nat → Int),
      (∀ c, c < CHANNELS → isI8 (pl.pol_a c).1 ∧ isI8 (pl.pol_a c).2 ∧
        isI8 (pl.pol_b c).1 ∧ isI8 (pl.pol_b c).2) →
      (∀ c, c < CHANNELS → -127 ≤ s c ∧ s c ≤ 127 ∧
        isI8 ((pl.pol_a c).1 + s c) ∧ isI8 ((pl.pol_b c).1 + s c)) →
      (inject true pl s).bind (fun q => inject true q (negI8 s)) =
        some pl) ∧
    (∀ (pl : Payload8) (s : Nat → Int) (q : Payload8),
      (∀ c, c < CHANNELS → isI8 (pl.pol_a c).2 ∧ isI8 (pl.pol_b c).2) →
      inject true pl s = some q →
      ∀ c, (q.pol_a c).2 = (pl.pol_a c).2 ∧
        (q.pol_b c).2 = (pl.pol_b c).2) := by
  have hinj : ∀ (pl : Payload8) (s : Nat → Int),
      inject true pl s = some
        { pol_a := fun c => if c < CHANNELS then
            (wrap8 ((pl.pol_a c).1 + s c), wrap8 ((pl.pol_a c).2 + 0))
          else pl.pol_a c
          pol_b := fun c => if c < CHANNELS then
            (wrap8 ((pl.pol_b c).1 + s c), wrap8 ((pl.pol_b c).2 + 0))
          else pl.pol_b c } := by
    intro pl s
    rfl
  constructor
  · intro pl s hv hs
    rw [hinj]
    show inject true _ (negI8 s) = some pl
    rw [hinj]
    congr 1
    ext c
    · by_cases hc : c < CHANNELS
      · simp only [if_pos hc, negI8]
        obtain ⟨ha1, ha2, hb1, hb2⟩ := hv c hc
        obtain ⟨hs1, hs2, hsa, hsb⟩ := hs c hc
        rw [wrap8_eq _ hsa]
        have e1 : (pl.pol_a c).1 + s c + -s c = (pl.pol_a c).1 := by ring
        rw [e1, wrap8_eq _ ha1]
      · simp only [if_neg hc]
    · by_cases hc : c < CHANNELS
      · simp only [if_pos hc, negI8]
        obtain ⟨ha1, ha2, hb1, hb2⟩ := hv c hc
        have e : (pl.pol_a c).2 + 0 = (pl.pol_a c).2 := add_zero _
        rw [e, wrap8_eq _ ha2, e, wrap8_eq _ ha2]
      · simp only [if_neg hc]
    · by_cases hc : c < CHANNELS
      · simp only [if_pos hc, negI8]
        obtain ⟨ha1, ha2, hb1, hb2⟩ := hv c hc
        obtain ⟨hs1, hs2, hsa, hsb⟩ := hs c hc
        rw [wrap8_eq _ hsb]
        have e1 : (pl.pol_b c).1 + s c + -s c = (pl.pol_b c).1 := by ring
        rw [e1, wrap8_eq _ hb1]
      · simp only [if_neg hc]
    · by_cases hc : c < CHANNELS
      · simp only [if_pos hc, negI8]
        obtain ⟨ha1, ha2, hb1, hb2⟩ := hv c hc
        have e : (pl.pol_b c).2 + 0 = (pl.pol_b c).2 := add_zero _
        rw [e, wrap8_eq _ hb2, e, wrap8_eq _ hb2]
      · simp only [if_neg hc]
  · intro pl s q hv heq c
    rw [hinj] at heq
    have hq := (Option.some.inj heq).symm
    subst hq
    by_cases hc : c < CHANNELS
    · obtain ⟨ha2, hb2⟩ := hv c hc
      constructor
      · show (if c < CHANNELS then
            (wrap8 ((pl.pol_a c).1 + s c), wrap8 ((pl.pol_a c).2 + 0))
          else pl.pol_a c).2 = (pl.pol_a c).2
        rw [if_pos hc]
        show wrap8 ((pl.pol_a c).2 + 0) = (pl.pol_a c).2
        rw [add_zero, wrap8_eq _ ha2]
      · show (if c < CHANNELS then
            (wrap8 ((pl.pol_b c).1 + s c), wrap8 ((pl.pol_b c).2 + 0))
          else pl.pol_b c).2 = (pl.pol_b c).2
        rw [if_pos hc]
        show wrap8 ((pl.pol_b c).2 + 0) = (pl.pol_b c).2
        rw [add_zero, wrap8_eq _ hb2]
    · constructor
      · show (if c < CHANNELS then
            (wrap8 ((pl.pol_a c).1 + s c), wrap8 ((pl.pol_a c).2 + 0))
          else pl.pol_a c).2 = (pl.pol_a c).2
        rw [if_neg hc]
      · show (if c < CHANNELS then
            (wrap8 ((pl.pol_b c).1 + s c), wrap8 ((pl.pol_b c).2 + 0))
          else pl.pol_b c).2 = (pl.pol_b c).2
        rw [if_neg hc]

/-- Witness for c7_inject_involution_and_im_untouched: the all-zero
payload with the all-ones pulse row. -/
theorem c7_inject_involution_witness :
    (∀ c, c < CHANNELS → isI8 (payloadZero.pol_a c).1 ∧
      isI8 (payloadZero.pol_a c).2 ∧ isI8 (payloadZero.pol_b c).1 ∧
      isI8 (payloadZero.pol_b c).2) ∧
    (inject true payloadZero (fun _ => 1)).bind
      (fun q => inject true q (negI8 (fun _ => 1))) = some payloadZero :=
  ⟨fun c _ => by norm_num [payloadZero, isI8],
    c7_inject_involution_and_im_untouched.1 payloadZero (fun _ => 1)
      (fun c _ => by norm_num [payloadZero, isI8])
      (fun c _ => by norm_num [payloadZero, isI8])⟩

/-!  ## The pulse injection task (src/injection.rs, pulse_injection_task)

A pulse is a list of rows (axis 0 = time samples), each row a 2048-channel
function.  The cyclic iterator is a counter modulo the number of pulses.
Real time enters only through the test last_injection.elapsed() >= cadence,
which we supply as an oracle bit per received payload. -/

/-- Loop state of pulse_injection_task: the loaded pulses, the cyclic
iterator position (this_pulse = pulses[cycle_i mod len]), the row index i,
the injecting flag, and current_pulse_length - bound once at task start
from the FIRST pulse's row count (src/injection.rs line 151) and never
rebound when the cycle advances. -/
structure InjTaskState where
  pulses : List (List (Nat → Int))
  cycle_i : Nat
  i : Nat
  currently_injecting : Bool
  current_pulse_length : Nat

/-- Initial state (src/injection.rs lines 144-151): the iterator has
yielded the first pulse and current_pulse_length is its row count. -/
def initInjState (pulses : List (List (Nat → Int))) : InjTaskState :=
  { pulses := pulses, cycle_i := 0, i := 0, currently_injecting := false
    current_pulse_length := (pulses.headD []).length }

/-- One loop iteration of pulse_injection_task (src/injection.rs lines
159-196) on receipt of one payload.  cadence_elapsed is the oracle for
last_injection.elapsed() >= cadence.  Slicing row i of a pulse with fewer
rows is an ndarray panic, and inject panics without x86_64_v3; both are
none. -/
def injStep (st : InjTaskState) (cadence_elapsed : Bool) (pl : Payload8) :
    Option (InjTaskState × Payload8) :=
  let st1 := if cadence_elapsed then
      { st with currently_injecting := true, i := 0 } else st
  if st1.currently_injecting then
    let pulse := st1.pulses.getD (st1.cycle_i % st1.pulses.length) []
    match pulse.get? st1.i with
    | none => none
    | some row =>
      match inject true pl row with
      | none => none
      | some pl2 =>
        let st2 := { st1 with i := st1.i + 1 }
        let st3 := if st2.i = st2.current_pulse_length then
            { st2 with currently_injecting := false
                       cycle_i := st2.cycle_i + 1 }
          else st2
        some (st3, pl2)
  else some (st1, pl)

/-- Run the injection loop over a list of (cadence oracle, payload)
inputs, collecting the forwarded payloads; a panic aborts the run. -/
def injRun (st : InjTaskState) :
    List (Bool × Payload8) → Option (InjTaskState × List Payload8)
  | [] => some (st, [])
  | (b, pl) :: rest =>
    match injStep st b pl with
    | none => none
    | some (st2, out) =>
      match injRun st2 rest with
      | none => none
      | some (st3, outs) => some (st3, out :: outs)

/-- Two loaded pulses of different row counts: the first has two rows, the
second one row. -/
def c8Pulses : List (List (Nat → Int)) :=
  [[fun _ => 0, fun _ => 0], [fun _ => 0]]

/-- Input schedule: an injection is triggered on the first payload (first
pulse, two rows) and again on the third payload (second pulse, one row). -/
def c8Inputs3 : List (Bool × Payload8) :=
  [(true, payloadZero), (false, payloadZero), (true, payloadZero)]

/-- The same schedule with a fourth, quiescent payload. -/
def c8Inputs4 : List (Bool × Payload8) :=
  [(true, payloadZero), (false, payloadZero), (true, payloadZero),
   (false, payloadZero)]

/-- C8 (code bug): current_pulse_length is captured once from the first
pulse (two rows) and never updated, so after the second (one-row) pulse
has been fully injected the task is still Active (i = 1, not equal to the
stale length 2) instead of returning to Idle, and the next payload panics
slicing row 1 of the one-row pulse.  The first pulse itself is handled as
the claim states: after its two rows the task is Idle and the cycle has
advanced. -/
theorem c8_pulse_length_not_rebound :
    (initInjState c8Pulses).current_pulse_length = 2 ∧
    ((c8Pulses.get? 1).getD []).length = 1 ∧
    ((injRun (initInjState c8Pulses)
        [(true, payloadZero), (false, payloadZero)]).map
      (fun r => (r.1.currently_injecting, r.1.cycle_i))) =
      some (false, 1) ∧
    ((injRun (initInjState c8Pulses) c8Inputs3).map
      (fun r => (r.1.currently_injecting, r.1.i, r.1.cycle_i))) =
      some (true, 1, 1) ∧
    injRun (initInjState c8Pulses) c8Inputs4 = none :=
  ⟨rfl, rfl, rfl, rfl, rfl⟩

end GReX
